import Mathlib

/-!
Shallow embedding of src/puzzles/states/state-chain-words.py.

The program enumerates simple paths ("chains") of a fixed length through the
static adjacency graph of US states and anagram-matches the concatenated
two-letter state codes against a dictionary word list.

Python dicts preserve insertion order, so the states table is embedded as an
ordered association list; Python sets of State objects (equality and hash are
by name) are embedded as lists of names; mutation of the shared chains
accumulator is embedded by returning the list of chains each call appends.
The recursion of traverse_neighbor_chain is bounded in the source by the
growth of the visited set toward the 50-entry table; the embedding makes that
bound explicit through a fuel parameter, instantiated at table size + 1, and
a fuel-stability theorem shows any fuel at least that large gives the same
result.
-/

namespace StateChainWords

/-- The State class: name, two-letter code, neighbor names
(source lines 15-37; a None neighbors argument becomes the empty list). -/
structure State where
  name : String
  abbr : String
  neighbors : List String
deriving DecidableEq, Repr

/-- The static table of the 50 US states with their land borders, in source
insertion order (source lines 45-96).  Python dict values() iteration order is
the insertion order, so the dict is embedded as the ordered list of its
values; its keys coincide with the name field of each value. -/
def states_and_neighbors : List State :=
 [⟨"Alabama", "AL", ["Mississippi", "Tennessee", "Florida", "Georgia"]⟩,
  ⟨"Alaska", "AK", []⟩,
  ⟨"Arizona", "AZ", ["Nevada", "New Mexico", "Utah", "California", "Colorado"]⟩,
  ⟨"Arkansas", "AR", ["Oklahoma", "Tennessee", "Texas", "Louisiana", "Mississippi", "Missouri"]⟩,
  ⟨"California", "CA", ["Oregon", "Arizona", "Nevada"]⟩,
  ⟨"Colorado", "CO", ["New Mexico", "Oklahoma", "Utah", "Wyoming", "Arizona", "Kansas", "Nebraska"]⟩,
  ⟨"Connecticut", "CT", ["New York", "Rhode Island", "Massachusetts"]⟩,
  ⟨"Delaware", "DE", ["New Jersey", "Pennsylvania", "Maryland"]⟩,
  ⟨"Florida", "FL", ["Georgia", "Alabama"]⟩,
  ⟨"Georgia", "GA", ["North Carolina", "South Carolina", "Tennessee", "Alabama", "Florida"]⟩,
  ⟨"Hawaii", "HI", []⟩,
  ⟨"Idaho", "ID", ["Utah", "Washington", "Wyoming", "Montana", "Nevada", "Oregon"]⟩,
  ⟨"Illinois", "IL", ["Kentucky", "Missouri", "Wisconsin", "Indiana", "Iowa", "Michigan"]⟩,
  ⟨"Indiana", "IN", ["Michigan", "Ohio", "Illinois", "Kentucky"]⟩,
  ⟨"Iowa", "IA", ["Nebraska", "South Dakota", "Wisconsin", "Illinois", "Minnesota", "Missouri"]⟩,
  ⟨"Kansas", "KS", ["Nebraska", "Oklahoma", "Colorado", "Missouri"]⟩,
  ⟨"Kentucky", "KY", ["Tennessee", "Virginia", "West Virginia", "Illinois", "Indiana", "Missouri", "Ohio"]⟩,
  ⟨"Louisiana", "LA", ["Texas", "Arkansas", "Mississippi"]⟩,
  ⟨"Maine", "ME", ["New Hampshire"]⟩,
  ⟨"Maryland", "MD", ["Virginia", "West Virginia", "Delaware", "Pennsylvania"]⟩,
  ⟨"Massachusetts", "MA", ["New York", "Rhode Island", "Vermont", "Connecticut", "New Hampshire"]⟩,
  ⟨"Michigan", "MI", ["Ohio", "Wisconsin", "Illinois", "Indiana"]⟩,
  ⟨"Minnesota", "MN", ["North Dakota", "South Dakota", "Wisconsin", "Iowa"]⟩,
  ⟨"Mississippi", "MS", ["Louisiana", "Tennessee", "Alabama", "Arkansas"]⟩,
  ⟨"Missouri", "MO", ["Nebraska", "Oklahoma", "Tennessee", "Arkansas", "Illinois", "Iowa", "Kansas", "Kentucky"]⟩,
  ⟨"Montana", "MT", ["South Dakota", "Wyoming", "Idaho", "North Dakota"]⟩,
  ⟨"Nebraska", "NE", ["Missouri", "South Dakota", "Wyoming", "Colorado", "Iowa", "Kansas"]⟩,
  ⟨"Nevada", "NV", ["Idaho", "Oregon", "Utah", "Arizona", "California"]⟩,
  ⟨"New Hampshire", "NH", ["Vermont", "Maine", "Massachusetts"]⟩,
  ⟨"New Jersey", "NJ", ["Pennsylvania", "Delaware", "New York"]⟩,
  ⟨"New Mexico", "NM", ["Oklahoma", "Texas", "Utah", "Arizona", "Colorado"]⟩,
  ⟨"New York", "NY", ["Pennsylvania", "Vermont", "Connecticut", "Massachusetts", "New Jersey"]⟩,
  ⟨"North Carolina", "NC", ["Tennessee", "Virginia", "Georgia", "South Carolina"]⟩,
  ⟨"North Dakota", "ND", ["South Dakota", "Minnesota", "Montana"]⟩,
  ⟨"Ohio", "OH", ["Michigan", "Pennsylvania", "West Virginia", "Indiana", "Kentucky"]⟩,
  ⟨"Oklahoma", "OK", ["Missouri", "New Mexico", "Texas", "Arkansas", "Colorado", "Kansas"]⟩,
  ⟨"Oregon", "OR", ["Nevada", "Washington", "California", "Idaho"]⟩,
  ⟨"Pennsylvania", "PA", ["New York", "Ohio", "West Virginia", "Delaware", "Maryland", "New Jersey"]⟩,
  ⟨"Rhode Island", "RI", ["Massachusetts", "Connecticut"]⟩,
  ⟨"South Carolina", "SC", ["North Carolina", "Georgia"]⟩,
  ⟨"South Dakota", "SD", ["Nebraska", "North Dakota", "Wyoming", "Iowa", "Minnesota", "Montana"]⟩,
  ⟨"Tennessee", "TN", ["Mississippi", "Missouri", "North Carolina", "Virginia", "Alabama", "Arkansas", "Georgia", "Kentucky"]⟩,
  ⟨"Texas", "TX", ["New Mexico", "Oklahoma", "Arkansas", "Louisiana"]⟩,
  ⟨"Utah", "UT", ["Nevada", "New Mexico", "Wyoming", "Arizona", "Colorado", "Idaho"]⟩,
  ⟨"Vermont", "VT", ["New Hampshire", "New York", "Massachusetts"]⟩,
  ⟨"Virginia", "VA", ["North Carolina", "Tennessee", "West Virginia", "Kentucky", "Maryland"]⟩,
  ⟨"Washington", "WA", ["Oregon", "Idaho"]⟩,
  ⟨"West Virginia", "WV", ["Pennsylvania", "Virginia", "Kentucky", "Maryland", "Ohio"]⟩,
  ⟨"Wisconsin", "WI", ["Michigan", "Minnesota", "Illinois", "Iowa"]⟩,
  ⟨"Wyoming", "WY", ["Nebraska", "South Dakota", "Utah", "Colorado", "Idaho", "Montana"]⟩]

/-- Keyed lookup in the states dict (source line 130 reads
states_and_neighbors[neighbor_name]).  The dict key of every entry equals its
name field, so lookup by key is find? by name over the ordered values. -/
def lookupState (n : String) : Option State :=
  states_and_neighbors.find? (fun s => s.name == n)

/-- states_seen.add(state): Python set membership and equality of State use
only the name, so the set is embedded as a list of names. -/
def insertSeen (n : String) (seen : List String) : List String :=
  if n ∈ seen then seen else n :: seen

/-- traverse_neighbor_chain (source lines 113-153).  The shared chains
accumulator is embedded by returning the chains this call appends, in append
order; build_neighbor_chains concatenates them.  local_states_seen and
local_chain copies at each branch become the values seen1 and chain1 passed
to each recursive call.  The fuel argument makes the visited-set-bounded
recursion structural; the source recursion never exceeds table size + 1
levels (each level adds a fresh state name to the visited set), which the
fuel-stability theorem below makes precise.  A neighbor name absent from the
table would raise KeyError in the source; that branch yields no chains here
and is proved unreachable for this table (neighbor resolution theorem). -/
def traverse_neighbor_chain : Nat → State → List String → List State → Int → List (List State)
  | 0, _, _, _, _ => []
  | fuel+1, state, states_seen, chain, max_depth =>
    let chain1 := chain ++ [state]
    if max_depth = 0 then
      [chain1]
    else
      let seen1 := insertSeen state.name states_seen
      (state.neighbors.map (fun neighbor_name =>
        match lookupState neighbor_name with
        | none => []
        | some neighbor =>
          if neighbor.name ∈ seen1 then []
          else traverse_neighbor_chain fuel neighbor seen1 chain1 (max_depth - 1))).flatten

/-- build_neighbor_chains generalized over the fuel bound. -/
def build_neighbor_chains_fuel (fuel : Nat) (chain_length : Int) : List (List State) :=
  (states_and_neighbors.map (fun state =>
    traverse_neighbor_chain fuel state [] [] (chain_length - 1))).flatten

/-- build_neighbor_chains (source lines 98-108): start a traversal from every
state with an empty chain and empty visited set, at depth chain_length - 1.
Fuel is table size + 1, enough for every reachable recursion. -/
def build_neighbor_chains (chain_length : Int) : List (List State) :=
  build_neighbor_chains_fuel (states_and_neighbors.length + 1) chain_length

/-- Reference enumeration following the spec: the visited set of every
recursive call is exactly the set of states on its own ancestor chain, so
sibling branches share no state at all. -/
def ref_traverse : Nat → State → List State → Int → List (List State)
  | 0, _, _, _ => []
  | fuel+1, state, chain, max_depth =>
    let chain1 := chain ++ [state]
    if max_depth = 0 then
      [chain1]
    else
      (state.neighbors.map (fun neighbor_name =>
        match lookupState neighbor_name with
        | none => []
        | some neighbor =>
          if neighbor.name ∈ chain1.map State.name then []
          else ref_traverse fuel neighbor chain1 (max_depth - 1))).flatten

/-- One chain step follows a listed neighbor link: the name of the second
state is in the first state's neighbor list. -/
def isEdge (a b : State) : Prop := b.name ∈ a.neighbors

instance : DecidableRel isEdge := fun a b =>
  inferInstanceAs (Decidable (b.name ∈ a.neighbors))

/-- Number of table entries whose name is not yet in the visited set; an
upper bound on the remaining recursion depth of the traversal. -/
def unseenCount (seen : List String) : Nat :=
  (states_and_neighbors.filter (fun s => decide (s.name ∉ seen))).length

/-- ASCII whitespace stripped by str.strip() (the embedding models ASCII
text; the dictionary and the state codes are ASCII). -/
def isPySpace (c : Char) : Bool :=
  c == ' ' || c == '\t' || c == '\n' || c == '\x0d' || c == '\x0b' || c == '\x0c'

/-- line.strip(): drop leading and trailing whitespace. -/
def pyStrip (s : List Char) : List Char :=
  ((s.dropWhile isPySpace).reverse.dropWhile isPySpace).reverse

/-- word = line.strip().upper() (source line 202).  Char.toUpper is the ASCII
uppercase map, matching str.upper() on ASCII text. -/
def normalize_line (line : List Char) : List Char :=
  (pyStrip line).map Char.toUpper

/-- Denotation of the compiled pattern of source line 195, a regex of shape
caret [A-Z] repeated n times dollar, under re.match against a string with no
trailing newline: the whole string is exactly n characters, all in A-Z. -/
def matchesUpperPattern (n : Nat) (w : List Char) : Bool :=
  w.length == n && w.all (fun c => 'A' ≤ c && c ≤ 'Z')

/-- The word filter of the reading loop (source lines 194-209): words whose
length differs from word_length = chain_length * 2 are skipped, then the
pattern decides admission. -/
def line_admitted (chain_length : Int) (line : List Char) : Bool :=
  let word := normalize_line line
  if (word.length : Int) = chain_length * 2 then
    matchesUpperPattern (chain_length * 2).toNat word
  else
    false

/-- generate_key (source lines 181-185): sort the characters, join, then
uppercase. -/
def generate_key (s : List Char) : List Char :=
  (List.insertionSort (· ≤ ·) s).map Char.toUpper

/-- Dict insertion of source lines 212-215: append the word to the existing
entry for the key, else add a new key at the end (Python dicts keep
insertion order). -/
def addWord : List (List Char × List (List Char)) → List Char → List Char →
    List (List Char × List (List Char))
  | [], key, w => [(key, [w])]
  | (k, ws) :: rest, key, w =>
    if k == key then (k, ws ++ [w]) :: rest else (k, ws) :: addWord rest key w

/-- Reading anagrams[key] when present, else no words (source lines
227-228). -/
def lookup_words (anagrams : List (List Char × List (List Char))) (key : List Char) :
    List (List Char) :=
  (List.lookup key anagrams).getD []

/-- One iteration of the dictionary reading loop (source lines 201-215). -/
def build_step (chain_length : Int) (anagrams : List (List Char × List (List Char)))
    (line : List Char) : List (List Char × List (List Char)) :=
  let word := normalize_line line
  if line_admitted chain_length line then
    addWord anagrams (generate_key word) word
  else
    anagrams

/-- The anagram index built from the dictionary lines (source lines
201-215). -/
def build_anagrams (chain_length : Int) (lines : List (List Char)) :
    List (List Char × List (List Char)) :=
  lines.foldl (build_step chain_length) []

/-- The normalized words the reading loop admits, in reading order. -/
def admitted_words (chain_length : Int) (lines : List (List Char)) : List (List Char) :=
  lines.filterMap (fun line =>
    if line_admitted chain_length line then some (normalize_line line) else none)

/-- chain_string (source lines 221-222): concatenation of the two-letter
codes of the chain in order. -/
def chain_string (chain : List State) : List Char :=
  (chain.map (fun s => s.abbr.data)).flatten

/-- The dictionary words matching one chain (source lines 226-228). -/
def chain_matches (chain_length : Int) (lines : List (List Char)) (chain : List State) :
    List (List Char) :=
  lookup_words (build_anagrams chain_length lines) (generate_key (chain_string chain))

/-- total_found_words.add(word): Python set insertion, embedded as an
insertion-ordered duplicate-free list. -/
def insertUnique (l : List (List Char)) (w : List Char) : List (List Char) :=
  if w ∈ l then l else l ++ [w]

/-- The global aggregate of matched words over all chains (source lines
218-233). -/
def total_found_words (chain_length : Int) (lines : List (List Char))
    (chains : List (List State)) : List (List Char) :=
  chains.foldl (fun acc chain =>
    (chain_matches chain_length lines chain).foldl insertUnique acc) []

/-- The exception int() raises on a malformed literal. -/
inductive PyExc where
  | valueError
deriving DecidableEq, Repr

/-- Integer value of a nonempty ASCII digit string. -/
def digitsVal (ds : List Char) : Int :=
  ds.foldl (fun acc c => 10 * acc + ((c.toNat - '0'.toNat : Nat) : Int)) 0

/-- int(string) on ASCII input: strip whitespace, allow one optional sign,
then require one or more decimal digits; anything else raises ValueError
(underscore digit grouping and non-ASCII digits are outside this model). -/
def pyInt (s : List Char) : Option Int :=
  match pyStrip s with
  | '+' :: ds => if !ds.isEmpty && ds.all Char.isDigit then some (digitsVal ds) else none
  | '-' :: ds => if !ds.isEmpty && ds.all Char.isDigit then some (-(digitsVal ds)) else none
  | ds => if !ds.isEmpty && ds.all Char.isDigit then some (digitsVal ds) else none

/-- The chain-length argument handling of the main routine (source lines
159-163): default 4, otherwise int(sys.argv[1]), whose ValueError is not
caught; the value is used as is, with no positivity or range check. -/
def parse_chain_length : Option (List Char) → Except PyExc Int
  | none => Except.ok 4
  | some s =>
    match pyInt s with
    | some n => Except.ok n
    | none => Except.error PyExc.valueError

theorem traverse_succ (fuel : Nat) (s : State) (seen : List String) (chain : List State) (d : Int) :
    traverse_neighbor_chain (fuel+1) s seen chain d =
      if d = 0 then [chain ++ [s]]
      else (s.neighbors.map (fun neighbor_name =>
        match lookupState neighbor_name with
        | none => []
        | some neighbor =>
          if neighbor.name ∈ insertSeen s.name seen then []
          else traverse_neighbor_chain fuel neighbor (insertSeen s.name seen) (chain ++ [s]) (d - 1))).flatten := rfl

theorem ref_traverse_succ (fuel : Nat) (s : State) (chain : List State) (d : Int) :
    ref_traverse (fuel+1) s chain d =
      if d = 0 then [chain ++ [s]]
      else (s.neighbors.map (fun neighbor_name =>
        match lookupState neighbor_name with
        | none => []
        | some neighbor =>
          if neighbor.name ∈ (chain ++ [s]).map State.name then []
          else ref_traverse fuel neighbor (chain ++ [s]) (d - 1))).flatten := rfl

theorem mem_insertSeen (x n : String) (seen : List String) :
    x ∈ insertSeen n seen ↔ x = n ∨ x ∈ seen := by
  unfold insertSeen
  by_cases h : n ∈ seen
  · simp only [if_pos h]
    constructor
    · exact Or.inr
    · rintro (rfl | hx)
      · exact h
      · exact hx
  · simp [if_neg h]

theorem lookupState_mem {n : String} {s : State} (h : lookupState n = some s) :
    s ∈ states_and_neighbors :=
  List.mem_of_find?_eq_some h

theorem lookupState_name {n : String} {s : State} (h : lookupState n = some s) :
    s.name = n := by
  have := List.find?_some h
  simpa using this

/-- Equivalence of the source traversal with the reference enumeration: when
the visited set holds exactly the names of the states on the ancestor chain,
the two produce the same list of chains. -/
theorem traverse_eq_ref : ∀ (fuel : Nat) (s : State) (seen : List String) (chain : List State) (d : Int),
    (∀ x, x ∈ seen ↔ x ∈ chain.map State.name) →
    traverse_neighbor_chain fuel s seen chain d = ref_traverse fuel s chain d := by
  intro fuel
  induction fuel with
  | zero => intro s seen chain d _; rfl
  | succ fuel ih =>
    intro s seen chain d hseen
    rw [traverse_succ, ref_traverse_succ]
    by_cases hd : d = 0
    · rw [if_pos hd, if_pos hd]
    · rw [if_neg hd, if_neg hd]
      congr 1
      apply List.map_congr_left
      intro nbname _
      have hinv : ∀ x, x ∈ insertSeen s.name seen ↔ x ∈ (chain ++ [s]).map State.name := by
        intro x
        rw [mem_insertSeen, List.map_append, List.mem_append, hseen x]
        simp [Or.comm]
      cases hlk : lookupState nbname with
      | none => rfl
      | some nb =>
        simp only []
        by_cases hin : nb.name ∈ insertSeen s.name seen
        · rw [if_pos hin, if_pos ((hinv nb.name).mp hin)]
        · rw [if_neg hin, if_neg (fun h => hin ((hinv nb.name).mpr h))]
          exact ih nb _ _ _ hinv

/-- Soundness of the reference enumeration: every emitted chain extends the
current chain by the current state plus d further table states, has one more
state per depth unit, keeps names distinct, and follows neighbor links. -/
theorem ref_traverse_spec : ∀ (fuel : Nat) (s : State) (chain : List State) (d : Int) (c : List State),
    c ∈ ref_traverse fuel s chain d →
    0 ≤ d
    ∧ (c.length : Int) = chain.length + 1 + d
    ∧ (∃ ext, c = chain ++ s :: ext ∧ ∀ x ∈ ext, x ∈ states_and_neighbors)
    ∧ (((chain ++ [s]).map State.name).Nodup → (c.map State.name).Nodup)
    ∧ (List.Chain' isEdge (chain ++ [s]) → List.Chain' isEdge c) := by
  intro fuel
  induction fuel with
  | zero => intro s chain d c hc; exact absurd hc (List.not_mem_nil c)
  | succ fuel ih =>
    intro s chain d c hc
    rw [ref_traverse_succ] at hc
    by_cases hd : d = 0
    · rw [if_pos hd] at hc
      have hceq : c = chain ++ [s] := List.mem_singleton.mp hc
      subst hceq hd
      refine ⟨le_refl 0, by push_cast [List.length_append, List.length_singleton]; ring,
        ⟨[], by simp, by simp⟩, id, id⟩
    · rw [if_neg hd] at hc
      obtain ⟨l, hl, hcl⟩ := List.mem_flatten.mp hc
      obtain ⟨nbname, hnbname, rfl⟩ := List.mem_map.mp hl
      cases hlk : lookupState nbname with
      | none => rw [hlk] at hcl; exact absurd hcl (List.not_mem_nil c)
      | some nb =>
        rw [hlk] at hcl
        replace hcl : c ∈ (if nb.name ∈ (chain ++ [s]).map State.name then []
            else ref_traverse fuel nb (chain ++ [s]) (d - 1)) := hcl
        by_cases hin : nb.name ∈ (chain ++ [s]).map State.name
        · rw [if_pos hin] at hcl; exact absurd hcl (List.not_mem_nil c)
        · rw [if_neg hin] at hcl
          obtain ⟨h0, hlen, ⟨ext, hext, hextmem⟩, hnd, hch⟩ := ih nb (chain ++ [s]) (d - 1) c hcl
          have hedge : isEdge s nb := by
            have := lookupState_name hlk
            unfold isEdge
            rw [this]
            exact hnbname
          refine ⟨by omega, ?_, ?_, ?_, ?_⟩
          · rw [hlen]; push_cast [List.length_append, List.length_singleton]; ring
          · refine ⟨nb :: ext, ?_, ?_⟩
            · rw [hext]; simp
            · intro x hx
              rcases List.mem_cons.mp hx with rfl | hx
              · exact lookupState_mem hlk
              · exact hextmem x hx
          · intro hnds
            apply hnd
            rw [List.map_append, List.nodup_append]
            refine ⟨hnds, List.nodup_singleton _, ?_⟩
            intro a ha hb
            rw [List.map_singleton, List.mem_singleton] at hb
            subst hb
            exact hin ha
          · intro hchs
            apply hch
            rw [List.chain'_append]
            refine ⟨hchs, List.chain'_singleton _, ?_⟩
            intro x hx y hy
            rw [List.getLast?_concat] at hx
            rw [List.head?_cons] at hy
            rw [Option.mem_def, Option.some_inj] at hx hy
            subst hx hy
            exact hedge

theorem table_names_nodup : (states_and_neighbors.map State.name).Nodup := by decide

theorem lookupState_self : ∀ s ∈ states_and_neighbors, lookupState s.name = some s := by decide

/-- A list of table states with pairwise-distinct names is no longer than the
table. -/
theorem length_le_table (l : List State)
    (hnd : (l.map State.name).Nodup) (hsub : ∀ x ∈ l, x ∈ states_and_neighbors) :
    l.length ≤ states_and_neighbors.length := by
  have h1 : (l.map State.name).toFinset.card = (l.map State.name).length :=
    List.toFinset_card_of_nodup hnd
  have h2 : (l.map State.name).toFinset ⊆ (states_and_neighbors.map State.name).toFinset := by
    intro a ha
    rw [List.mem_toFinset] at ha ⊢
    obtain ⟨s, hs, rfl⟩ := List.mem_map.mp ha
    exact List.mem_map_of_mem State.name (hsub s hs)
  have h3 := Finset.card_le_card h2
  have h4 := List.toFinset_card_le (states_and_neighbors.map State.name)
  rw [h1] at h3
  rw [List.length_map] at h3
  rw [List.length_map] at h4
  omega

/-- Completeness of the reference enumeration: any simple neighbor-linked
extension of the current chain by table states is emitted, given enough
fuel for its length. -/
theorem ref_traverse_complete : ∀ (ext : List State) (fuel : Nat) (s : State) (chain : List State),
    ext.length + 1 ≤ fuel →
    (∀ x ∈ ext, x ∈ states_and_neighbors) →
    List.Chain' isEdge (s :: ext) →
    ((chain ++ s :: ext).map State.name).Nodup →
    chain ++ s :: ext ∈ ref_traverse fuel s chain (ext.length : Int) := by
  intro ext
  induction ext with
  | nil =>
    intro fuel s chain hf _ _ _
    obtain ⟨f, rfl⟩ : ∃ f, fuel = f + 1 := ⟨fuel - 1, by omega⟩
    rw [ref_traverse_succ]
    norm_num
  | cons nb ext ih =>
    intro fuel s chain hf hmem hch hnd
    obtain ⟨f, rfl⟩ : ∃ f, fuel = f + 1 := ⟨fuel - 1, by omega⟩
    rw [ref_traverse_succ]
    have hd : (((nb :: ext).length : Nat) : Int) ≠ 0 := by
      rw [List.length_cons]; push_cast; omega
    rw [if_neg hd]
    have hedge : isEdge s nb := (List.chain'_cons.mp hch).1
    have hnbtable : nb ∈ states_and_neighbors := hmem nb (List.mem_cons_self nb ext)
    have hlk : lookupState nb.name = some nb := lookupState_self nb hnbtable
    apply List.mem_flatten.mpr
    refine ⟨_, List.mem_map_of_mem _ hedge, ?_⟩
    rw [hlk]
    have hguard : nb.name ∉ (chain ++ [s]).map State.name := by
      intro hcontra
      have hsplit : (chain ++ s :: nb :: ext) = (chain ++ [s]) ++ (nb :: ext) := by simp
      rw [hsplit, List.map_append, List.nodup_append] at hnd
      exact hnd.2.2 hcontra (by simp)
    show chain ++ s :: nb :: ext ∈ (if nb.name ∈ (chain ++ [s]).map State.name then []
      else ref_traverse f nb (chain ++ [s]) ((((nb :: ext).length : Nat) : Int) - 1))
    rw [if_neg hguard]
    have hdepth : (((nb :: ext).length : Nat) : Int) - 1 = (ext.length : Int) := by
      rw [List.length_cons]; push_cast; ring
    rw [hdepth]
    have hshape : chain ++ s :: nb :: ext = (chain ++ [s]) ++ nb :: ext := by simp
    rw [hshape]
    apply ih f nb (chain ++ [s])
    · rw [List.length_cons] at hf; omega
    · intro x hx; exact hmem x (List.mem_cons_of_mem nb hx)
    · exact (List.chain'_cons.mp hch).2
    · rw [← hshape]; exact hnd

theorem mem_build_fuel (fuel : Nat) (n : Int) (c : List State) :
    c ∈ build_neighbor_chains_fuel fuel n ↔
      ∃ s ∈ states_and_neighbors, c ∈ traverse_neighbor_chain fuel s [] [] (n - 1) := by
  unfold build_neighbor_chains_fuel
  rw [List.mem_flatten]
  constructor
  · rintro ⟨l, hl, hcl⟩
    obtain ⟨s, hs, rfl⟩ := List.mem_map.mp hl
    exact ⟨s, hs, hcl⟩
  · rintro ⟨s, hs, hcs⟩
    exact ⟨_, List.mem_map_of_mem _ hs, hcs⟩

/-- With a negative depth the traversal recurses without ever emitting a
chain: the depth check can never hit zero again. -/
theorem traverse_neg : ∀ (fuel : Nat) (s : State) (seen : List String) (chain : List State) (d : Int),
    d < 0 → traverse_neighbor_chain fuel s seen chain d = [] := by
  intro fuel
  induction fuel with
  | zero => intro s seen chain d _; rfl
  | succ fuel ih =>
    intro s seen chain d hd
    rw [traverse_succ, if_neg (by omega)]
    rw [List.flatten_eq_nil_iff]
    intro l hl
    obtain ⟨nbname, _, rfl⟩ := List.mem_map.mp hl
    cases hlk : lookupState nbname with
    | none => rfl
    | some nb =>
      simp only []
      by_cases hin : nb.name ∈ insertSeen s.name seen
      · rw [if_pos hin]
      · rw [if_neg hin]
        exact ih nb _ _ _ (by omega)

/-- For a non-positive chain length no chain is produced. -/
theorem build_nonpos (n : Int) (hn : n ≤ 0) : build_neighbor_chains n = [] := by
  unfold build_neighbor_chains build_neighbor_chains_fuel
  rw [List.flatten_eq_nil_iff]
  intro l hl
  obtain ⟨s, _, rfl⟩ := List.mem_map.mp hl
  exact traverse_neg _ s [] [] (n - 1) (by omega)

theorem unseenCount_pos {s : State} {seen : List String}
    (hs : s ∈ states_and_neighbors) (hname : s.name ∉ seen) :
    0 < unseenCount seen := by
  unfold unseenCount
  apply List.length_pos_of_mem (a := s)
  rw [List.mem_filter]
  exact ⟨hs, decide_eq_true hname⟩

theorem unseenCount_insert_lt {s : State} {seen : List String}
    (hs : s ∈ states_and_neighbors) (hname : s.name ∉ seen) :
    unseenCount (insertSeen s.name seen) < unseenCount seen := by
  unfold unseenCount
  have hsub : (states_and_neighbors.filter (fun t => decide (t.name ∉ insertSeen s.name seen))).Sublist
      (states_and_neighbors.filter (fun t => decide (t.name ∉ seen))) := by
    apply List.monotone_filter_right
    intro t ht
    rw [decide_eq_true_iff] at ht
    apply decide_eq_true
    intro hmem
    exact ht ((mem_insertSeen t.name s.name seen).mpr (Or.inr hmem))
  have hle := hsub.length_le
  rcases Nat.lt_or_ge
    (states_and_neighbors.filter (fun t => decide (t.name ∉ insertSeen s.name seen))).length
    (states_and_neighbors.filter (fun t => decide (t.name ∉ seen))).length with hlt | hge
  · exact hlt
  · exfalso
    have heq := hsub.eq_of_length (by omega)
    have hmemp : s ∈ states_and_neighbors.filter (fun t => decide (t.name ∉ seen)) := by
      rw [List.mem_filter]
      exact ⟨hs, decide_eq_true hname⟩
    rw [← heq, List.mem_filter] at hmemp
    have := of_decide_eq_true hmemp.2
    exact this ((mem_insertSeen s.name s.name seen).mpr (Or.inl rfl))

/-- Fuel stability: the recursion is bounded by the growth of the visited set
toward the finite table, so any fuel at least the number of unseen table
names gives the same traversal result.  The invariants hold at every
reachable call: the current state is a table entry not yet in the visited
set. -/
theorem traverse_fuel_stable :
    ∀ (f1 f2 : Nat) (s : State) (seen : List String) (chain : List State) (d : Int),
    s ∈ states_and_neighbors → s.name ∉ seen →
    unseenCount seen ≤ f1 → unseenCount seen ≤ f2 →
    traverse_neighbor_chain f1 s seen chain d = traverse_neighbor_chain f2 s seen chain d := by
  intro f1
  induction f1 with
  | zero =>
    intro f2 s seen chain d hs hname h1 _
    exact absurd h1 (by have := unseenCount_pos hs hname; omega)
  | succ f1 ih =>
    intro f2 s seen chain d hs hname h1 h2
    obtain ⟨g2, rfl⟩ : ∃ g2, f2 = g2 + 1 :=
      ⟨f2 - 1, by have := unseenCount_pos hs hname; omega⟩
    rw [traverse_succ, traverse_succ]
    by_cases hd : d = 0
    · rw [if_pos hd, if_pos hd]
    · rw [if_neg hd, if_neg hd]
      congr 1
      apply List.map_congr_left
      intro nbname _
      cases hlk : lookupState nbname with
      | none => rfl
      | some nb =>
        simp only []
        by_cases hin : nb.name ∈ insertSeen s.name seen
        · rw [if_pos hin, if_pos hin]
        · rw [if_neg hin, if_neg hin]
          have hdec := unseenCount_insert_lt hs hname
          exact ih g2 nb (insertSeen s.name seen) (chain ++ [s]) (d - 1)
            (lookupState_mem hlk) hin (by omega) (by omega)

theorem unseenCount_nil : unseenCount [] = states_and_neighbors.length := by
  unfold unseenCount
  rw [List.filter_eq_self.mpr]
  intro s _
  exact decide_eq_true (List.not_mem_nil s.name)

/-- Any fuel of at least table size + 1 gives the fuel the source recursion
actually needs, so build_neighbor_chains is independent of it. -/
theorem build_fuel_stable (fuel : Nat) (n : Int)
    (hf : states_and_neighbors.length + 1 ≤ fuel) :
    build_neighbor_chains_fuel fuel n = build_neighbor_chains n := by
  unfold build_neighbor_chains build_neighbor_chains_fuel
  congr 1
  apply List.map_congr_left
  intro s hs
  apply traverse_fuel_stable _ _ s [] [] (n - 1) hs (List.not_mem_nil s.name)
  · rw [unseenCount_nil]; omega
  · rw [unseenCount_nil]; omega

theorem lookup_addWord : ∀ (idx : List (List Char × List (List Char))) (key w k : List Char),
    lookup_words (addWord idx key w) k =
      if k = key then lookup_words idx k ++ [w] else lookup_words idx k := by
  intro idx key w
  induction idx with
  | nil =>
    intro k
    by_cases h : k = key
    · subst h
      simp [addWord, lookup_words, List.lookup]
    · simp [addWord, lookup_words, List.lookup, beq_eq_false_iff_ne.mpr h, h]
  | cons p rest ih =>
    intro k
    obtain ⟨k0, ws0⟩ := p
    unfold addWord
    by_cases h0 : k0 = key
    · subst h0
      rw [if_pos (beq_self_eq_true k0)]
      by_cases h : k = k0
      · subst h
        simp [lookup_words, List.lookup]
      · simp [lookup_words, List.lookup, beq_eq_false_iff_ne.mpr h, h]
    · rw [if_neg (by simpa using h0)]
      by_cases h : k = k0
      · subst h
        simp only [lookup_words, List.lookup, beq_self_eq_true]
        rw [if_neg (fun hc => h0 hc)]
      · simp only [lookup_words, List.lookup, beq_eq_false_iff_ne.mpr h]
        exact ih k

theorem admitted_words_cons (L : Int) (line : List Char) (rest : List (List Char)) :
    admitted_words L (line :: rest) =
      if line_admitted L line then normalize_line line :: admitted_words L rest
      else admitted_words L rest := by
  unfold admitted_words
  rw [List.filterMap_cons]
  by_cases h : line_admitted L line <;> simp [h]

/-- The index after processing a batch of lines answers every key with the
previously stored words followed by the freshly admitted words of that
anagram class, in reading order. -/
theorem lookup_foldl_build (L : Int) : ∀ (lines : List (List Char))
    (idx : List (List Char × List (List Char))) (k : List Char),
    lookup_words (lines.foldl (build_step L) idx) k =
      lookup_words idx k ++ (admitted_words L lines).filter (fun w => generate_key w == k) := by
  intro lines
  induction lines with
  | nil => intro idx k; simp [admitted_words]
  | cons line rest ih =>
    intro idx k
    rw [List.foldl_cons, ih, admitted_words_cons]
    by_cases ha : line_admitted L line
    · rw [if_pos ha]
      have hstep : build_step L idx line =
          addWord idx (generate_key (normalize_line line)) (normalize_line line) := by
        unfold build_step
        rw [if_pos ha]
      rw [hstep, lookup_addWord, List.filter_cons]
      by_cases hk : k = generate_key (normalize_line line)
      · rw [if_pos hk]
        rw [(by simp [hk] : (generate_key (normalize_line line) == k) = true)]
        simp
      · rw [if_neg hk]
        rw [(beq_eq_false_iff_ne.mpr (fun hc => hk hc.symm) :
          (generate_key (normalize_line line) == k) = false)]
        simp
    · rw [if_neg ha]
      have hstep : build_step L idx line = idx := by
        unfold build_step
        rw [if_neg ha]
      rw [hstep]

theorem generate_key_perm {q w : List Char} (h : q.Perm w) :
    generate_key q = generate_key w := by
  unfold generate_key
  congr 1
  apply List.eq_of_perm_of_sorted (r := (· ≤ ·))
  · exact ((List.perm_insertionSort _ q).trans h).trans (List.perm_insertionSort _ w).symm
  · exact List.sorted_insertionSort _ q
  · exact List.sorted_insertionSort _ w

theorem mem_insertUnique (l : List (List Char)) (w x : List Char) :
    x ∈ insertUnique l w ↔ x ∈ l ∨ x = w := by
  unfold insertUnique
  by_cases h : w ∈ l
  · rw [if_pos h]
    constructor
    · exact Or.inl
    · rintro (hx | rfl)
      · exact hx
      · exact h
  · rw [if_neg h]
    simp

theorem nodup_insertUnique (l : List (List Char)) (w : List Char) (h : l.Nodup) :
    (insertUnique l w).Nodup := by
  unfold insertUnique
  by_cases hw : w ∈ l
  · rwa [if_pos hw]
  · rw [if_neg hw, List.nodup_append]
    refine ⟨h, List.nodup_singleton w, ?_⟩
    intro a ha hb
    rw [List.mem_singleton] at hb
    subst hb
    exact hw ha

theorem mem_foldl_insertUnique : ∀ (ws acc : List (List Char)) (x : List Char),
    x ∈ ws.foldl insertUnique acc ↔ x ∈ acc ∨ x ∈ ws := by
  intro ws
  induction ws with
  | nil => intro acc x; simp
  | cons w ws ih =>
    intro acc x
    rw [List.foldl_cons, ih, mem_insertUnique]
    constructor
    · rintro ((hx | rfl) | hx)
      · exact Or.inl hx
      · exact Or.inr (List.mem_cons_self _ _)
      · exact Or.inr (List.mem_cons_of_mem _ hx)
    · rintro (hx | hx)
      · exact Or.inl (Or.inl hx)
      · rcases List.mem_cons.mp hx with rfl | hx
        · exact Or.inl (Or.inr rfl)
        · exact Or.inr hx

theorem nodup_foldl_insertUnique : ∀ (ws acc : List (List Char)), acc.Nodup →
    (ws.foldl insertUnique acc).Nodup := by
  intro ws
  induction ws with
  | nil => intro acc h; exact h
  | cons w ws ih =>
    intro acc h
    rw [List.foldl_cons]
    exact ih _ (nodup_insertUnique acc w h)

theorem mem_total_aux (L : Int) (lines : List (List Char)) :
    ∀ (chains : List (List State)) (acc : List (List Char)) (x : List Char),
    x ∈ chains.foldl (fun acc chain =>
        (chain_matches L lines chain).foldl insertUnique acc) acc ↔
      x ∈ acc ∨ ∃ c ∈ chains, x ∈ chain_matches L lines c := by
  intro chains
  induction chains with
  | nil => intro acc x; simp
  | cons c chains ih =>
    intro acc x
    rw [List.foldl_cons, ih, mem_foldl_insertUnique]
    constructor
    · rintro ((hx | hx) | ⟨c', hc', hx⟩)
      · exact Or.inl hx
      · exact Or.inr ⟨c, List.mem_cons_self _ _, hx⟩
      · exact Or.inr ⟨c', List.mem_cons_of_mem _ hc', hx⟩
    · rintro (hx | ⟨c', hc', hx⟩)
      · exact Or.inl (Or.inl hx)
      · rcases List.mem_cons.mp hc' with rfl | hc'
        · exact Or.inl (Or.inr hx)
        · exact Or.inr ⟨c', hc', hx⟩

theorem nodup_total_aux (L : Int) (lines : List (List Char)) :
    ∀ (chains : List (List State)) (acc : List (List Char)), acc.Nodup →
    (chains.foldl (fun acc chain =>
        (chain_matches L lines chain).foldl insertUnique acc) acc).Nodup := by
  intro chains
  induction chains with
  | nil => intro acc h; exact h
  | cons c chains ih =>
    intro acc h
    rw [List.foldl_cons]
    exact ih _ (nodup_foldl_insertUnique _ acc h)

theorem mem_build (n : Int) (c : List State) :
    c ∈ build_neighbor_chains n ↔
      ∃ s ∈ states_and_neighbors,
        c ∈ traverse_neighbor_chain (states_and_neighbors.length + 1) s [] [] (n - 1) :=
  mem_build_fuel _ n c

/-- C1: for every chain length n at least 1, every chain produced by
build_neighbor_chains contains exactly n states, no state repeats within it
(state identity is the name), and every consecutive pair of the chain is an
edge: the successor's name is listed in the predecessor's neighbor list of
the static table. -/
theorem c1_produced_chains_sound (n : Int) (c : List State)
    (_hn : 1 ≤ n) (hc : c ∈ build_neighbor_chains n) :
    (c.length : Int) = n ∧ (c.map State.name).Nodup ∧ List.Chain' isEdge c := by
  obtain ⟨s, hs, hcs⟩ := (mem_build n c).mp hc
  rw [traverse_eq_ref _ s [] [] (n - 1) (by simp)] at hcs
  obtain ⟨h0, hlen, _, hnd, hch⟩ := ref_traverse_spec _ s [] (n - 1) c hcs
  have hl : (c.length : Int) = 0 + 1 + (n - 1) := by simpa using hlen
  refine ⟨by omega, hnd (by simp), hch (by simp)⟩

theorem c1_produced_chains_sound_witness :
    (([⟨"Alabama", "AL", ["Mississippi", "Tennessee", "Florida", "Georgia"]⟩] :
        List State).length : Int) = 1
    ∧ (([(⟨"Alabama", "AL", ["Mississippi", "Tennessee", "Florida", "Georgia"]⟩ : State)].map
        State.name).Nodup)
    ∧ List.Chain' isEdge [⟨"Alabama", "AL", ["Mississippi", "Tennessee", "Florida", "Georgia"]⟩] :=
  c1_produced_chains_sound 1
    [⟨"Alabama", "AL", ["Mississippi", "Tennessee", "Florida", "Georgia"]⟩]
    (by decide) (by decide)

/-- C2: completeness of the enumeration: every sequence of n pairwise
name-distinct table states in which each successor's name is listed among its
predecessor's neighbors occurs in the returned list of chains, and for
length 1 the result is exactly one single-state chain per table state, in
table order.  A valid path and its valid reverse are two different such
sequences, so both occur. -/
theorem c2_enumeration_complete :
    (∀ (n : Int) (c : List State), 1 ≤ n → (c.length : Int) = n →
      (∀ s ∈ c, s ∈ states_and_neighbors) → (c.map State.name).Nodup →
      List.Chain' isEdge c → c ∈ build_neighbor_chains n)
    ∧ build_neighbor_chains 1 = states_and_neighbors.map (fun s => [s]) := by
  constructor
  · intro n c hn hlen hmem hnd hch
    cases c with
    | nil => simp at hlen; omega
    | cons s rest =>
      have hs : s ∈ states_and_neighbors := hmem s (List.mem_cons_self s rest)
      have hrest : ∀ x ∈ rest, x ∈ states_and_neighbors :=
        fun x hx => hmem x (List.mem_cons_of_mem s hx)
      have hbound : (s :: rest).length ≤ states_and_neighbors.length :=
        length_le_table _ hnd hmem
      rw [List.length_cons] at hbound
      apply (mem_build n (s :: rest)).mpr
      refine ⟨s, hs, ?_⟩
      rw [traverse_eq_ref _ s [] [] (n - 1) (by simp)]
      have hdeq : n - 1 = (rest.length : Int) := by
        rw [List.length_cons] at hlen
        push_cast at hlen ⊢
        omega
      rw [hdeq]
      have hfull := ref_traverse_complete rest (states_and_neighbors.length + 1) s []
        (by omega) hrest hch (by simpa using hnd)
      simpa using hfull
  · rfl

theorem c2_enumeration_complete_witness :
    [(⟨"Maine", "ME", ["New Hampshire"]⟩ : State),
     ⟨"New Hampshire", "NH", ["Vermont", "Maine", "Massachusetts"]⟩]
      ∈ build_neighbor_chains 2 :=
  c2_enumeration_complete.1 2
    [⟨"Maine", "ME", ["New Hampshire"]⟩,
     ⟨"New Hampshire", "NH", ["Vermont", "Maine", "Massachusetts"]⟩]
    (by decide) (by decide) (by decide) (by decide)
    (List.chain'_pair.mpr (by decide))

/-- C3: the source traversal, which copies the visited set and the partial
chain before every recursive branch, is observationally equivalent to the
pure reference enumeration whose every call sees exactly the states of its
own ancestor chain as visited; sibling branches therefore cannot influence
each other, and the result only depends on the chain each call extends. -/
theorem c3_traversal_equals_reference (fuel : Nat) (s : State) (seen : List String)
    (chain : List State) (d : Int)
    (hseen : ∀ x, x ∈ seen ↔ x ∈ chain.map State.name) :
    traverse_neighbor_chain fuel s seen chain d = ref_traverse fuel s chain d :=
  traverse_eq_ref fuel s seen chain d hseen

theorem c3_traversal_equals_reference_witness :
    traverse_neighbor_chain 51 ⟨"Maine", "ME", ["New Hampshire"]⟩ [] [] 2 =
      ref_traverse 51 ⟨"Maine", "ME", ["New Hampshire"]⟩ [] 2 :=
  c3_traversal_equals_reference 51 ⟨"Maine", "ME", ["New Hampshire"]⟩ [] [] 2
    (by simp)

/-- C4: the enumerator is a pure function of the table and the chain length:
two runs over the identical graph table and identical chain length return
equal chain lists, hence agree in both the multiset of produced paths and
their order. -/
theorem c4_enumeration_deterministic (n1 n2 : Int) (run1 run2 : List (List State))
    (hn : n1 = n2)
    (h1 : run1 = build_neighbor_chains n1) (h2 : run2 = build_neighbor_chains n2) :
    run1 = run2 := by
  subst hn
  rw [h1, h2]

theorem c4_enumeration_deterministic_witness :
    build_neighbor_chains 2 = build_neighbor_chains 2 :=
  c4_enumeration_deterministic 2 2 (build_neighbor_chains 2) (build_neighbor_chains 2)
    rfl rfl rfl

/-- C9: table integrity: every neighbor name listed in the static table
resolves to a table entry (so the traversal's dict lookup never fails), the
adjacency is symmetric, and exactly Alaska and Hawaii have empty neighbor
lists. -/
theorem c9_table_invariants :
    (∀ s ∈ states_and_neighbors, ∀ nb ∈ s.neighbors, (lookupState nb).isSome = true)
    ∧ (∀ s ∈ states_and_neighbors, ∀ t ∈ states_and_neighbors,
        (t.name ∈ s.neighbors ↔ s.name ∈ t.neighbors))
    ∧ (states_and_neighbors.filter (fun s => s.neighbors.isEmpty)).map State.name
        = ["Alaska", "Hawaii"] :=
  ⟨by decide, by decide, by decide⟩

theorem c9_table_invariants_witness :
    (lookupState "Mississippi").isSome = true :=
  c9_table_invariants.1 ⟨"Alabama", "AL", ["Mississippi", "Tennessee", "Florida", "Georgia"]⟩
    (by decide) "Mississippi" (by decide)

/-- C10: the traversal recursion is bounded by the growth of the visited set
toward the finite table even for zero or negative chain lengths (any fuel of
at least table size + 1 yields the same result), and for a non-positive
chain length the returned list of chains is empty, with no error. -/
theorem c10_bounded_recursion_and_nonpos (n : Int) :
    (∀ fuel : Nat, states_and_neighbors.length + 1 ≤ fuel →
      build_neighbor_chains_fuel fuel n = build_neighbor_chains n)
    ∧ (n ≤ 0 → build_neighbor_chains n = []) :=
  ⟨fun fuel hf => build_fuel_stable fuel n hf, build_nonpos n⟩

theorem c10_bounded_recursion_and_nonpos_witness :
    build_neighbor_chains_fuel 60 (-1) = build_neighbor_chains (-1)
    ∧ build_neighbor_chains (-1) = [] :=
  ⟨(c10_bounded_recursion_and_nonpos (-1)).1 60 (by decide),
   (c10_bounded_recursion_and_nonpos (-1)).2 (by decide)⟩

/-- C5: a dictionary line contributes a word to the anagram index if and only
if its stripped, upper-cased form has length exactly 2 times the chain length
and consists solely of the letters A through Z; every non-conforming line is
skipped and the filter is total, raising no error for any line. -/
theorem c5_word_filter (chain_length : Int) (line : List Char) :
    line_admitted chain_length line = true ↔
      ((normalize_line line).length : Int) = 2 * chain_length
        ∧ ∀ c ∈ normalize_line line, 'A' ≤ c ∧ c ≤ 'Z' := by
  unfold line_admitted matchesUpperPattern
  by_cases h : ((normalize_line line).length : Int) = chain_length * 2
  · rw [if_pos h]
    simp only [Bool.and_eq_true, beq_iff_eq, List.all_eq_true, Bool.and_eq_true,
      decide_eq_true_iff]
    constructor
    · rintro ⟨_, hall⟩
      exact ⟨by omega, hall⟩
    · rintro ⟨_, hall⟩
      exact ⟨by omega, hall⟩
  · rw [if_neg h]
    constructor
    · intro hfalse
      exact absurd hfalse (by simp)
    · rintro ⟨hlen, _⟩
      exact absurd (by omega : ((normalize_line line).length : Int) = chain_length * 2) h

/-- C6: index build followed by lookup round-trips: every admitted word is
returned when looking up any permutation of its letters through generate_key,
and a lookup returns exactly the admitted words whose generated key equals
the query's, in admission order. -/
theorem c6_index_roundtrip (chain_length : Int) (lines : List (List Char)) :
    (∀ w q, w ∈ admitted_words chain_length lines → q.Perm w →
      w ∈ lookup_words (build_anagrams chain_length lines) (generate_key q))
    ∧ (∀ q, lookup_words (build_anagrams chain_length lines) (generate_key q)
        = (admitted_words chain_length lines).filter
            (fun w => generate_key w == generate_key q)) := by
  have hchar : ∀ k, lookup_words (build_anagrams chain_length lines) k
      = (admitted_words chain_length lines).filter (fun w => generate_key w == k) := by
    intro k
    unfold build_anagrams
    have hbase := lookup_foldl_build chain_length lines [] k
    simpa [lookup_words] using hbase
  refine ⟨?_, fun q => hchar _⟩
  intro w q hw hperm
  rw [hchar, List.mem_filter]
  refine ⟨hw, ?_⟩
  rw [generate_key_perm hperm]
  exact beq_self_eq_true _

theorem c6_index_roundtrip_witness :
    ['A', 'B', 'A', 'L'] ∈ lookup_words
      (build_anagrams 2 [['A', 'B', 'A', 'L']]) (generate_key ['L', 'A', 'B', 'A']) :=
  (c6_index_roundtrip 2 [['A', 'B', 'A', 'L']]).1 ['A', 'B', 'A', 'L'] ['L', 'A', 'B', 'A']
    (by decide) (by decide)

/-- C7 counterexample: the claim that a non-positive chain length is reported
as an InvalidArgument before enumeration fails on the code: the argument 0
parses successfully and the program proceeds with chain_length 0; a
non-integer argument produces the uncaught low-level ValueError of int(),
not an argument-parsing report. -/
theorem c7_no_invalid_argument_check :
    parse_chain_length (some ['0']) = Except.ok 0
    ∧ parse_chain_length (some ['a']) = Except.error PyExc.valueError :=
  ⟨rfl, rfl⟩

/-- C7 amended: a missing argument defaults to 4; a non-integer argument
makes int() raise ValueError, an uncaught low-level parse failure that ends
the process before any enumeration; any parsed integer, including zero and
negative values, is accepted with no positivity check, and a non-positive
length then enumerates no chains and raises no error. -/
theorem c7_argument_handling (s : List Char) (n : Int) :
    parse_chain_length none = Except.ok 4
    ∧ (pyInt s = none → parse_chain_length (some s) = Except.error PyExc.valueError)
    ∧ (pyInt s = some n → parse_chain_length (some s) = Except.ok n)
    ∧ (n ≤ 0 → build_neighbor_chains n = []) := by
  refine ⟨rfl, ?_, ?_, build_nonpos n⟩
  · intro h
    show (match pyInt s with
      | some m => Except.ok m
      | none => Except.error PyExc.valueError) = Except.error PyExc.valueError
    rw [h]
  · intro h
    show (match pyInt s with
      | some m => Except.ok m
      | none => Except.error PyExc.valueError) = Except.ok n
    rw [h]

theorem c7_argument_handling_witness :
    parse_chain_length (some ['x']) = Except.error PyExc.valueError
    ∧ build_neighbor_chains (-2) = [] :=
  ⟨(c7_argument_handling ['x'] (-2)).2.1 rfl,
   (c7_argument_handling ['x'] (-2)).2.2.2 (by decide)⟩

/-- C8: every matched dictionary word occurs exactly once in the final
aggregate word list, which is duplicate-free and holds exactly the words
matched by at least one chain, merged by word value even when several
distinct chains produce the same anagram key and match the same word. -/
theorem c8_aggregate_merges_by_word (chain_length : Int) (lines : List (List Char))
    (chains : List (List State)) :
    (total_found_words chain_length lines chains).Nodup
    ∧ ∀ w, w ∈ total_found_words chain_length lines chains ↔
        ∃ c ∈ chains, w ∈ chain_matches chain_length lines c := by
  unfold total_found_words
  refine ⟨nodup_total_aux chain_length lines chains [] List.nodup_nil, fun w => ?_⟩
  rw [mem_total_aux]
  simp

end StateChainWords
